import Mathlib

/-!
Verification of the intellidocs retrieval pipeline against its natural-language
specification.  The development shallowly embeds the pure content of the Python
sources: the word chunker (utils/chunker.py), the vector-index wrapper
(utils/faiss_index.py, with the external faiss primitives modelled from the
specification), the orchestrator's per-document loop (app.py) and the LLM
fallback path (utils/llm.py).
-/

namespace IntelliDocs

/-! ## Chunker (utils/chunker.py)

Words are obtained as in Python's str.split(): maximal runs of non-whitespace
characters, so empty tokens never occur.  The normalized text
re.sub(r" \s+ ", " ", text.strip()) equals " ".join(words), which is how the
text field of every chunk is built below.
-/

/-- One chunk record, mirroring the dict built by chunk_text. -/
structure Chunk where
  text : String
  source : String
  chunk_id : Nat
  start_word : Nat
  end_word : Nat
  word_count : Nat
  deriving Repr, DecidableEq, Inhabited

/-- Accumulator-based word splitter: groups maximal runs of non-whitespace
characters, exactly as Python's str.split() with no separator argument. -/
def wordsAux : List Char → List Char → List (List Char)
  | [], [] => []
  | [], acc => [acc.reverse]
  | c :: cs, acc =>
      if c.isWhitespace then
        if acc = [] then wordsAux cs [] else acc.reverse :: wordsAux cs []
      else wordsAux cs (c :: acc)

/-- The whitespace-delimited words of a text (Python: text.split()). -/
def wordsOf (text : String) : List String :=
  (wordsAux text.data []).map (fun l => String.mk l)

/-- The slice words[start:e] (Python list slicing). -/
def window (words : List String) (start e : Nat) : List String :=
  (words.drop start).take (e - start)

/-- The chunk dict appended for the window words[start:e]. -/
def mkChunk (words : List String) (src : String) (start e id : Nat) : Chunk :=
  { text := String.intercalate " " (window words start e)
    source := src
    chunk_id := id
    start_word := start
    end_word := e
    word_count := (window words start e).length }

/-- The while-loop of chunk_text (chunker.py lines 46-65), with explicit fuel.
Each iteration takes the window words[start : min (start+C) len], appends it as
a chunk when it has at least M words (only then consuming a chunk id), breaks
when the window end reached the end of the word list (len ≤ start + C, i.e.
end ≥ len(words) for end = min (start+C) len), and otherwise advances start by
C - O.  The fuel bounds the number of iterations; chunk_text passes
words.length, which is sufficient whenever O < C (see chunker_fuel_stable). -/
def chunkLoop (words : List String) (src : String) (C O M : Nat) :
    Nat → Nat → Nat → List Chunk
  | 0, _, _ => []
  | fuel + 1, start, id =>
      if start < words.length then
        if M ≤ (window words start (min (start + C) words.length)).length then
          mkChunk words src start (min (start + C) words.length) id ::
            (if words.length ≤ start + C then []
             else chunkLoop words src C O M fuel (start + (C - O)) (id + 1))
        else
          (if words.length ≤ start + C then []
           else chunkLoop words src C O M fuel (start + (C - O)) id)
      else []

/-- chunk_text (chunker.py).  The guard `not text or not text.strip()` holds
exactly when every character of the text is whitespace (an empty text
vacuously so).  A document of at most chunk_size words yields one whole-document
chunk when it has at least min_chunk_size words and nothing otherwise; a longer
document is cut by the sliding-window loop. -/
def chunk_text (text : String) (source_file : String)
    (chunk_size : Nat) (overlap : Nat) (min_chunk_size : Nat) : List Chunk :=
  if text.data.all Char.isWhitespace then []
  else
    if (wordsOf text).length ≤ chunk_size then
      if min_chunk_size ≤ (wordsOf text).length then
        [{ text := String.intercalate " " (wordsOf text)
           source := source_file
           chunk_id := 0
           start_word := 0
           end_word := (wordsOf text).length
           word_count := (wordsOf text).length }]
      else []
    else
      chunkLoop (wordsOf text) source_file chunk_size overlap min_chunk_size
        (wordsOf text).length 0 0

/-! ### Basic word-splitting lemmas -/

lemma wordsAux_ne_nil (cs : List Char) : ∀ acc, acc ≠ [] → wordsAux cs acc ≠ [] := by
  induction cs with
  | nil =>
      intro acc hacc
      cases acc with
      | nil => exact absurd rfl hacc
      | cons a l => simp [wordsAux]
  | cons c cs ih =>
      intro acc hacc
      by_cases hw : c.isWhitespace
      · cases acc with
        | nil => exact absurd rfl hacc
        | cons a l => simp [wordsAux, hw]
      · simp only [wordsAux, hw, if_false]
        exact ih (c :: acc) (by simp)

lemma wordsAux_nil_of_allWS (cs : List Char) (h : ∀ c ∈ cs, c.isWhitespace) :
    wordsAux cs [] = [] := by
  induction cs with
  | nil => rfl
  | cons c cs ih =>
      have hc : c.isWhitespace := h c (by simp)
      simp only [wordsAux, hc, if_true, if_pos rfl]
      exact ih (fun d hd => h d (by simp [hd]))

lemma allWS_of_wordsAux_nil (cs : List Char) (h : wordsAux cs [] = []) :
    ∀ c ∈ cs, c.isWhitespace := by
  induction cs with
  | nil => intro c hc; simp at hc
  | cons c cs ih =>
      by_cases hw : c.isWhitespace
      · simp only [wordsAux, hw, if_true, if_pos rfl] at h
        intro d hd
        rcases List.mem_cons.mp hd with h1 | h2
        · simpa [h1] using hw
        · exact ih h d h2
      · exfalso
        simp only [wordsAux, hw, if_false] at h
        exact wordsAux_ne_nil cs [c] (by simp) h

/-- The chunker's guard is equivalent to the word list being empty. -/
lemma allWS_iff_wordsOf_nil (text : String) :
    text.data.all Char.isWhitespace = true ↔ wordsOf text = [] := by
  constructor
  · intro h
    simp only [wordsOf, List.map_eq_nil_iff]
    exact wordsAux_nil_of_allWS _ (by simpa [List.all_eq_true] using h)
  · intro h
    simp only [wordsOf, List.map_eq_nil_iff] at h
    simpa [List.all_eq_true] using allWS_of_wordsAux_nil _ h

lemma window_length (words : List String) (start e : Nat)
    (hse : start ≤ e) (heL : e ≤ words.length) :
    (window words start e).length = e - start := by
  simp only [window, List.length_take, List.length_drop]
  omega

/-! ### Shape lemmas for one loop iteration -/

lemma chunkLoop_of_ge (words : List String) (src : String) (C O M : Nat)
    (fuel start id : Nat) (h : words.length ≤ start) :
    chunkLoop words src C O M fuel start id = [] := by
  cases fuel with
  | zero => rfl
  | succ fuel => simp only [chunkLoop, if_neg (not_lt.mpr h)]

lemma chunkLoop_break_keep (words : List String) (src : String) (C O M : Nat)
    (fuel start id : Nat) (hs : start < words.length)
    (hend : words.length ≤ start + C)
    (hM : M ≤ (window words start (min (start + C) words.length)).length) :
    chunkLoop words src C O M (fuel + 1) start id
      = [mkChunk words src start (min (start + C) words.length) id] := by
  simp only [chunkLoop, if_pos hs, if_pos hM, if_pos hend]

lemma chunkLoop_break_drop (words : List String) (src : String) (C O M : Nat)
    (fuel start id : Nat) (hs : start < words.length)
    (hend : words.length ≤ start + C)
    (hM : ¬ M ≤ (window words start (min (start + C) words.length)).length) :
    chunkLoop words src C O M (fuel + 1) start id = [] := by
  simp only [chunkLoop, if_pos hs, if_neg hM, if_pos hend]

lemma chunkLoop_cont_keep (words : List String) (src : String) (C O M : Nat)
    (fuel start id : Nat) (hs : start < words.length)
    (hend : ¬ words.length ≤ start + C)
    (hM : M ≤ (window words start (min (start + C) words.length)).length) :
    chunkLoop words src C O M (fuel + 1) start id
      = mkChunk words src start (min (start + C) words.length) id ::
          chunkLoop words src C O M fuel (start + (C - O)) (id + 1) := by
  simp only [chunkLoop, if_pos hs, if_pos hM, if_neg hend]

lemma chunkLoop_cont_drop (words : List String) (src : String) (C O M : Nat)
    (fuel start id : Nat) (hs : start < words.length)
    (hend : ¬ words.length ≤ start + C)
    (hM : ¬ M ≤ (window words start (min (start + C) words.length)).length) :
    chunkLoop words src C O M (fuel + 1) start id
      = chunkLoop words src C O M fuel (start + (C - O)) id := by
  simp only [chunkLoop, if_pos hs, if_neg hM, if_neg hend]

/-! ### Loop characterization (general case, O < C and M ≤ C) -/

lemma chunkLoop_get?_spec (words : List String) (src : String) (C O M : Nat)
    (hO : O < C) (hMC : M ≤ C) :
    ∀ fuel start id, start < words.length → words.length ≤ start + fuel →
      ∀ j c, (chunkLoop words src C O M fuel start id).get? j = some c →
        c.start_word = start + j * (C - O) ∧ c.chunk_id = id + j ∧
        M ≤ c.word_count ∧
        c.end_word = min (start + j * (C - O) + C) words.length := by
  intro fuel
  induction fuel with
  | zero => intro start id hs hf; omega
  | succ fuel ih =>
      intro start id hs hf j c hc
      by_cases hend : words.length ≤ start + C
      · have hmin : min (start + C) words.length = words.length :=
          Nat.min_eq_right hend
        have hwl : (window words start (min (start + C) words.length)).length
            = words.length - start := by
          rw [hmin, window_length words start words.length (le_of_lt hs) le_rfl]
        by_cases hM : M ≤ words.length - start
        · rw [chunkLoop_break_keep words src C O M fuel start id hs hend
              (by rw [hwl]; exact hM)] at hc
          cases j with
          | zero =>
              simp only [List.get?] at hc
              cases hc
              refine ⟨by simp [mkChunk], by simp [mkChunk], ?_, ?_⟩
              · simpa [mkChunk, hwl] using hM
              · simp [mkChunk, hmin]
          | succ j => simp [List.get?] at hc
        · rw [chunkLoop_break_drop words src C O M fuel start id hs hend
              (by rw [hwl]; exact hM)] at hc
          simp at hc
      · have hlt : start + C < words.length := not_le.mp hend
        have hmin : min (start + C) words.length = start + C :=
          Nat.min_eq_left (le_of_lt hlt)
        have hwl : (window words start (min (start + C) words.length)).length = C := by
          rw [hmin, window_length words start (start + C) (Nat.le_add_right _ _)
            (le_of_lt hlt)]
          omega
        rw [chunkLoop_cont_keep words src C O M fuel start id hs hend
            (by rw [hwl]; exact hMC)] at hc
        cases j with
        | zero =>
            simp only [List.get?] at hc
            cases hc
            refine ⟨by simp [mkChunk], by simp [mkChunk], ?_, ?_⟩
            · simpa [mkChunk, hwl] using hMC
            · simp [mkChunk, hmin]
        | succ j =>
            simp only [List.get?] at hc
            obtain ⟨h1, h2, h3, h4⟩ :=
              ih (start + (C - O)) (id + 1) (by omega) (by omega) j c hc
            refine ⟨?_, by omega, h3, ?_⟩
            · rw [h1, Nat.succ_mul]; ring
            · rw [h4, Nat.succ_mul]; ring_nf


lemma chunkLoop_coverage (words : List String) (src : String) (C O M : Nat)
    (hO : O < C) (hMC : M ≤ C) :
    ∀ fuel start id, start < words.length → words.length ≤ start + fuel →
      ∀ w, start ≤ w → w < words.length →
        (∃ c ∈ chunkLoop words src C O M fuel start id,
            c.start_word ≤ w ∧ w < c.end_word) ∨ words.length < w + M := by
  intro fuel
  induction fuel with
  | zero => intro start id hs hf; omega
  | succ fuel ih =>
      intro start id hs hf w hsw hwL
      by_cases hend : words.length ≤ start + C
      · have hmin : min (start + C) words.length = words.length :=
          Nat.min_eq_right hend
        have hwl : (window words start (min (start + C) words.length)).length
            = words.length - start := by
          rw [hmin, window_length words start words.length (le_of_lt hs) le_rfl]
        by_cases hM : M ≤ words.length - start
        · left
          refine ⟨mkChunk words src start (min (start + C) words.length) id,
            ?_, ?_, ?_⟩
          · rw [chunkLoop_break_keep words src C O M fuel start id hs hend
              (by rw [hwl]; exact hM)]
            simp
          · simpa [mkChunk] using hsw
          · simpa [mkChunk, hmin] using hwL
        · right; omega
      · have hlt : start + C < words.length := not_le.mp hend
        have hmin : min (start + C) words.length = start + C :=
          Nat.min_eq_left (le_of_lt hlt)
        have hwl : (window words start (min (start + C) words.length)).length = C := by
          rw [hmin, window_length words start (start + C) (Nat.le_add_right _ _)
            (le_of_lt hlt)]
          omega
        rw [chunkLoop_cont_keep words src C O M fuel start id hs hend
            (by rw [hwl]; exact hMC)]
        by_cases hw : w < start + C
        · left
          refine ⟨mkChunk words src start (min (start + C) words.length) id,
            by simp, by simpa [mkChunk] using hsw, by simpa [mkChunk, hmin] using hw⟩
        · have := ih (start + (C - O)) (id + 1) (by omega) (by omega) w
            (by omega) hwL
          rcases this with ⟨c, hcmem, hc1, hc2⟩ | hrem
          · exact Or.inl ⟨c, List.mem_cons_of_mem _ hcmem, hc1, hc2⟩
          · exact Or.inr hrem

lemma chunkLoop_invariants (words : List String) (src : String) (C O M : Nat)
    (hO : O < C) :
    ∀ fuel start id, start ≤ words.length →
      (∀ c ∈ chunkLoop words src C O M fuel start id,
          c.end_word - c.start_word = c.word_count ∧ start ≤ c.start_word) ∧
      (chunkLoop words src C O M fuel start id).Pairwise
        (fun a b => a.start_word < b.start_word) := by
  intro fuel
  induction fuel with
  | zero => intro start id _; exact ⟨by simp [chunkLoop], by simp [chunkLoop]⟩
  | succ fuel ih =>
      intro start id hsL
      by_cases hs : start < words.length
      · have hse : start ≤ min (start + C) words.length :=
          le_min (Nat.le_add_right _ _) hsL
        have heL : min (start + C) words.length ≤ words.length :=
          Nat.min_le_right _ _
        have hwc : (window words start (min (start + C) words.length)).length
            = min (start + C) words.length - start :=
          window_length words start _ hse heL
        have hhead : (mkChunk words src start (min (start + C) words.length) id).end_word
              - (mkChunk words src start (min (start + C) words.length) id).start_word
            = (mkChunk words src start (min (start + C) words.length) id).word_count := by
          simp [mkChunk, hwc]
        by_cases hend : words.length ≤ start + C
        · by_cases hM : M ≤ (window words start (min (start + C) words.length)).length
          · rw [chunkLoop_break_keep words src C O M fuel start id hs hend hM]
            refine ⟨?_, by simp⟩
            intro c hc
            rw [List.mem_singleton] at hc
            subst hc
            exact ⟨hhead, by simp [mkChunk]⟩
          · rw [chunkLoop_break_drop words src C O M fuel start id hs hend hM]
            simp
        · have hrec1 : start + (C - O) ≤ words.length := by omega
          by_cases hM : M ≤ (window words start (min (start + C) words.length)).length
          · rw [chunkLoop_cont_keep words src C O M fuel start id hs hend hM]
            obtain ⟨ihall, ihpw⟩ := ih (start + (C - O)) (id + 1) hrec1
            constructor
            · intro c hc
              rcases List.mem_cons.mp hc with hc | hc
              · subst hc; exact ⟨hhead, by simp [mkChunk]⟩
              · obtain ⟨h1, h2⟩ := ihall c hc
                exact ⟨h1, by omega⟩
            · refine List.Pairwise.cons ?_ ihpw
              intro b hb
              obtain ⟨_, h2⟩ := ihall b hb
              simp only [mkChunk]
              omega
          · rw [chunkLoop_cont_drop words src C O M fuel start id hs hend hM]
            obtain ⟨ihall, ihpw⟩ := ih (start + (C - O)) id hrec1
            refine ⟨?_, ihpw⟩
            intro c hc
            obtain ⟨h1, h2⟩ := ihall c hc
            exact ⟨h1, by omega⟩
      · rw [chunkLoop_of_ge words src C O M (fuel + 1) start id (not_lt.mp hs)]
        simp

lemma chunkLoop_fuel_congr (words : List String) (src : String) (C O M : Nat)
    (hO : O < C) :
    ∀ f1 f2 start id, words.length ≤ start + f1 → words.length ≤ start + f2 →
      chunkLoop words src C O M f1 start id = chunkLoop words src C O M f2 start id := by
  intro f1
  induction f1 with
  | zero =>
      intro f2 start id h1 h2
      rw [chunkLoop_of_ge words src C O M 0 start id (by omega),
        chunkLoop_of_ge words src C O M f2 start id (by omega)]
  | succ f1 ih =>
      intro f2 start id h1 h2
      by_cases hs : start < words.length
      · cases f2 with
        | zero => omega
        | succ f2 =>
            simp only [chunkLoop, if_pos hs]
            by_cases hM : M ≤ (window words start (min (start + C) words.length)).length
            · rw [if_pos hM, if_pos hM]
              by_cases hend : words.length ≤ start + C
              · rw [if_pos hend, if_pos hend]
              · rw [if_neg hend, if_neg hend,
                  ih f2 (start + (C - O)) (id + 1) (by omega) (by omega)]
            · rw [if_neg hM, if_neg hM]
              by_cases hend : words.length ≤ start + C
              · rw [if_pos hend, if_pos hend]
              · rw [if_neg hend, if_neg hend,
                  ih f2 (start + (C - O)) id (by omega) (by omega)]
      · rw [chunkLoop_of_ge words src C O M (f1 + 1) start id (not_lt.mp hs),
          chunkLoop_of_ge words src C O M f2 start id (not_lt.mp hs)]

/-- Above chunk_size words, chunk_text is the sliding-window loop started at
word 0 with fuel words.length. -/
lemma chunk_text_eq_loop (text src : String) (C O M : Nat)
    (hW : C < (wordsOf text).length) :
    chunk_text text src C O M =
      chunkLoop (wordsOf text) src C O M (wordsOf text).length 0 0 := by
  have hne : wordsOf text ≠ [] := by
    intro h
    rw [h] at hW
    simp at hW
  have hg : ¬ (text.data.all Char.isWhitespace = true) := fun h =>
    hne ((allWS_iff_wordsOf_nil text).mp h)
  simp only [chunk_text, if_neg hg, if_neg (not_le.mpr hW)]

/-! ### Chunker claims -/

/-- Claim C1 (amended: additionally requires min_chunk_size ≤ chunk_size, see
chunk_text_coverage_cex).  For a text of more than chunk_size words, with
overlap < chunk_size: the j-th returned chunk starts at word j*(C-O) and
carries chunk_id j (so start_word values are exactly 0, C-O, 2(C-O), … and ids
are assigned sequentially from 0 to kept windows only); every returned chunk
has at least min_chunk_size words; and the chunk ranges cover every word index
below W except possibly a trailing remainder of fewer than min_chunk_size
words. -/
theorem chunk_text_sliding_windows (text src : String) (C O M : Nat)
    (hO : O < C) (hMC : M ≤ C) (hW : C < (wordsOf text).length) :
    (∀ j c, (chunk_text text src C O M).get? j = some c →
        c.start_word = j * (C - O) ∧ c.chunk_id = j) ∧
    (∀ c ∈ chunk_text text src C O M, M ≤ c.word_count) ∧
    (∀ w, w < (wordsOf text).length →
        (∃ c ∈ chunk_text text src C O M, c.start_word ≤ w ∧ w < c.end_word) ∨
        (wordsOf text).length < w + M) := by
  have h0 : 0 < (wordsOf text).length := by omega
  rw [chunk_text_eq_loop text src C O M hW]
  refine ⟨?_, ?_, ?_⟩
  · intro j c hc
    obtain ⟨h1, h2, _, _⟩ := chunkLoop_get?_spec (wordsOf text) src C O M hO hMC
      (wordsOf text).length 0 0 h0 (by omega) j c hc
    exact ⟨by simpa using h1, by simpa using h2⟩
  · intro c hc
    obtain ⟨⟨i, hilt⟩, hgi⟩ := List.mem_iff_get.mp hc
    have hget : (chunkLoop (wordsOf text) src C O M (wordsOf text).length 0 0).get? i
        = some c := by
      rw [List.get?_eq_get hilt, hgi]
    exact (chunkLoop_get?_spec (wordsOf text) src C O M hO hMC
      (wordsOf text).length 0 0 h0 (by omega) i c hget).2.2.1
  · intro w hw
    exact chunkLoop_coverage (wordsOf text) src C O M hO hMC
      (wordsOf text).length 0 0 h0 (by omega) w (Nat.zero_le _) hw

/-- Witness for chunk_text_sliding_windows at a 10-word document with
chunk_size 4, overlap 1, min_chunk_size 2 (kept windows start at 0, 3, 6). -/
theorem chunk_text_sliding_windows_witness :
    1 < 4 ∧ 2 ≤ 4 ∧ 4 < (wordsOf "p q r s t u v w x y").length ∧
    ((∀ j c, (chunk_text "p q r s t u v w x y" "s" 4 1 2).get? j = some c →
        c.start_word = j * (4 - 1) ∧ c.chunk_id = j) ∧
     (∀ c ∈ chunk_text "p q r s t u v w x y" "s" 4 1 2, 2 ≤ c.word_count) ∧
     (∀ w, w < (wordsOf "p q r s t u v w x y").length →
        (∃ c ∈ chunk_text "p q r s t u v w x y" "s" 4 1 2,
            c.start_word ≤ w ∧ w < c.end_word) ∨
        (wordsOf "p q r s t u v w x y").length < w + 2)) :=
  ⟨by decide, by decide, by decide,
    chunk_text_sliding_windows "p q r s t u v w x y" "s" 4 1 2
      (by decide) (by decide) (by decide)⟩

/-- Claim C1 as frozen fails when min_chunk_size exceeds chunk_size: on the
3-word text with chunk_size 2, overlap 1, min_chunk_size 3 (so W > C and
O < C hold) every window is below the minimum, no chunk is returned, and word 0
is neither covered by any chunk nor within an under-minimum trailing remainder
(the uncovered remainder is the whole 3-word document, not fewer than 3
words). -/
theorem chunk_text_coverage_cex :
    1 < 2 ∧ 2 < (wordsOf "a b c").length ∧
    ¬ ((∃ c ∈ chunk_text "a b c" "s" 2 1 3, c.start_word ≤ 0 ∧ 0 < c.end_word) ∨
       (wordsOf "a b c").length < 0 + 3) := by
  decide

/-- Claim C2: chunk_text returns the empty sequence on an empty or
whitespace-only text (not an error); and on a text of 0 < W ≤ chunk_size words
it returns exactly one chunk spanning the whole document (start_word 0,
end_word W) when W ≥ min_chunk_size, and the empty sequence otherwise. -/
theorem chunk_text_small_cases (text src : String) (C O M : Nat) :
    (text.data.all Char.isWhitespace = true → chunk_text text src C O M = []) ∧
    (0 < (wordsOf text).length → (wordsOf text).length ≤ C →
      (M ≤ (wordsOf text).length →
        chunk_text text src C O M =
          [{ text := String.intercalate " " (wordsOf text), source := src,
             chunk_id := 0, start_word := 0, end_word := (wordsOf text).length,
             word_count := (wordsOf text).length }]) ∧
      ((wordsOf text).length < M → chunk_text text src C O M = [])) := by
  constructor
  · intro h
    simp [chunk_text, h]
  · intro hpos hWC
    have hg : ¬ (text.data.all Char.isWhitespace = true) := by
      intro h
      have hnil := (allWS_iff_wordsOf_nil text).mp h
      rw [hnil] at hpos
      simp at hpos
    constructor
    · intro hM
      simp only [chunk_text, if_neg hg, if_pos hWC, if_pos hM]
    · intro hM
      simp only [chunk_text, if_neg hg, if_pos hWC, if_neg (not_le.mpr hM)]

/-- Witness for chunk_text_small_cases: a whitespace-only text yields no
chunks, and a 3-word text with chunk_size 5, min_chunk_size 2 yields exactly
the whole-document chunk. -/
theorem chunk_text_small_cases_witness :
    (" ".data.all Char.isWhitespace = true ∧ chunk_text " " "x" 300 50 50 = []) ∧
    (0 < (wordsOf "a b c").length ∧ (wordsOf "a b c").length ≤ 5 ∧
      2 ≤ (wordsOf "a b c").length ∧
      chunk_text "a b c" "x" 5 1 2 =
        [{ text := String.intercalate " " (wordsOf "a b c"), source := "x",
           chunk_id := 0, start_word := 0, end_word := (wordsOf "a b c").length,
           word_count := (wordsOf "a b c").length }]) :=
  ⟨⟨by decide, (chunk_text_small_cases " " "x" 300 50 50).1 (by decide)⟩,
   ⟨by decide, by decide, by decide,
     ((chunk_text_small_cases "a b c" "x" 5 1 2).2 (by decide) (by decide)).1
       (by decide)⟩⟩

/-- Claim C7: under the contract precondition overlap < chunk_size, every chunk
produced by chunk_text satisfies end_word - start_word = word_count, and the
chunks of one call (one source document) appear with strictly increasing
start_word. -/
theorem chunk_invariant_fields (text src : String) (C O M : Nat) (hO : O < C) :
    (∀ c ∈ chunk_text text src C O M, c.end_word - c.start_word = c.word_count) ∧
    (chunk_text text src C O M).Pairwise
      (fun a b => a.start_word < b.start_word) := by
  by_cases hg : text.data.all Char.isWhitespace = true
  · simp [chunk_text, hg]
  · by_cases hWC : (wordsOf text).length ≤ C
    · by_cases hM : M ≤ (wordsOf text).length
      · simp only [chunk_text, if_neg hg, if_pos hWC, if_pos hM]
        refine ⟨?_, by simp⟩
        intro c hc
        rw [List.mem_singleton] at hc
        subst hc
        simp
      · simp only [chunk_text, if_neg hg, if_pos hWC, if_neg hM]
        simp
    · rw [chunk_text_eq_loop text src C O M (not_le.mp hWC)]
      obtain ⟨hall, hpw⟩ := chunkLoop_invariants (wordsOf text) src C O M hO
        (wordsOf text).length 0 0 (Nat.zero_le _)
      exact ⟨fun c hc => (hall c hc).1, hpw⟩

/-- Witness for chunk_invariant_fields at the 10-word sliding-window
document. -/
theorem chunk_invariant_fields_witness :
    1 < 4 ∧
    ((∀ c ∈ chunk_text "p q r s t u v w x y" "s" 4 1 2,
        c.end_word - c.start_word = c.word_count) ∧
     (chunk_text "p q r s t u v w x y" "s" 4 1 2).Pairwise
       (fun a b => a.start_word < b.start_word)) :=
  ⟨by decide, chunk_invariant_fields "p q r s t u v w x y" "s" 4 1 2 (by decide)⟩

/-- Claim C10: with chunk_size > 0 and overlap < chunk_size the sliding-window
loop of chunk_text terminates: start strictly increases by chunk_size - overlap
≥ 1 per iteration until the window end reaches the word count, so a fuel of
words.length iterations is never exhausted and every larger fuel computes the
same chunk list; chunk_text (which runs the loop with exactly that fuel)
therefore computes the loop's limit. -/
theorem chunker_fuel_stable (text src : String) (C O M fuel : Nat)
    (hC : 0 < C) (hO : O < C) (hfuel : (wordsOf text).length ≤ fuel) :
    chunkLoop (wordsOf text) src C O M fuel 0 0 =
      chunkLoop (wordsOf text) src C O M (wordsOf text).length 0 0 ∧
    (C < (wordsOf text).length →
      chunk_text text src C O M = chunkLoop (wordsOf text) src C O M fuel 0 0) := by
  have h := chunkLoop_fuel_congr (wordsOf text) src C O M hO fuel
    (wordsOf text).length 0 0 (by omega) (by omega)
  exact ⟨h, fun hW => by rw [chunk_text_eq_loop text src C O M hW, h]⟩

/-- Witness for chunker_fuel_stable: any fuel of at least 3 computes the same
result on a 3-word text. -/
theorem chunker_fuel_stable_witness :
    0 < 2 ∧ 1 < 2 ∧ (wordsOf "a b c").length ≤ 7 ∧
    (chunkLoop (wordsOf "a b c") "s" 2 1 1 7 0 0 =
        chunkLoop (wordsOf "a b c") "s" 2 1 1 (wordsOf "a b c").length 0 0 ∧
      (2 < (wordsOf "a b c").length →
        chunk_text "a b c" "s" 2 1 1 = chunkLoop (wordsOf "a b c") "s" 2 1 1 7 0 0)) :=
  ⟨by decide, by decide, by decide,
    chunker_fuel_stable "a b c" "s" 2 1 1 7 (by decide) (by decide) (by decide)⟩

/-! ## Vector index (utils/faiss_index.py)

Embeddings are real vectors (lists of reals); the 2D numpy array passed to
create_faiss_index is a list of rows.  The external faiss primitives are
modelled from the specification, section 4.2: faiss.normalize_L2 rescales each
vector to unit L2 norm, and IndexFlatIP.search returns the top results by
descending inner product, ties broken by ascending position.
-/

/-- Inner product of two vectors (excess coordinates of the longer one are
ignored; the pipeline only ever compares equal-dimension rows of one array). -/
noncomputable def dot (u v : List ℝ) : ℝ :=
  (List.zipWith (fun a b => a * b) u v).sum

/-- Modelled from the spec: faiss.normalize_L2 divides every coordinate by the
vector's L2 norm, producing a unit vector whenever the input is nonzero. -/
noncomputable def normalize (v : List ℝ) : List ℝ :=
  v.map (fun x => x / Real.sqrt (dot v v))

/-- Total number of scalar entries of the embedding array
(numpy ndarray.size, the quantity tested by `embeddings.size == 0`). -/
def npSize (es : List (List ℝ)) : Nat := (es.map List.length).sum

/-- The flat inner-product index: the stored vectors in insertion order. -/
structure FaissIndex where
  vecs : List (List ℝ)

/-- create_faiss_index (faiss_index.py lines 18-33): None when the embedding
array has size zero, otherwise an IndexFlatIP holding the L2-normalized rows
in insertion order. -/
noncomputable def create_faiss_index (embeddings : List (List ℝ)) :
    Option FaissIndex :=
  if npSize embeddings = 0 then none
  else some ⟨embeddings.map normalize⟩

/-- Result order of the index search: higher score first, ties broken by the
smaller (earlier) position. -/
def scoreLE (a b : Nat × ℝ) : Prop := b.2 < a.2 ∨ (a.2 = b.2 ∧ a.1 ≤ b.1)

noncomputable instance : DecidableRel scoreLE := fun _ _ => Classical.propDecidable _

instance : IsTotal (Nat × ℝ) scoreLE := by
  constructor
  intro a b
  simp only [scoreLE]
  rcases lt_trichotomy a.2 b.2 with h | h | h
  · exact Or.inr (Or.inl h)
  · rcases Nat.le_total a.1 b.1 with hn | hn
    · exact Or.inl (Or.inr ⟨h, hn⟩)
    · exact Or.inr (Or.inr ⟨h.symm, hn⟩)
  · exact Or.inl (Or.inl h)

instance : IsTrans (Nat × ℝ) scoreLE := by
  constructor
  intro a b c hab hbc
  simp only [scoreLE] at hab hbc ⊢
  rcases hab with h1 | ⟨h1, h1n⟩ <;> rcases hbc with h2 | ⟨h2, h2n⟩
  · exact Or.inl (lt_trans h2 h1)
  · exact Or.inl (by rw [← h2]; exact h1)
  · exact Or.inl (by rw [h1]; exact h2)
  · exact Or.inr ⟨h1.trans h2, le_trans h1n h2n⟩

lemma scoreLE_antisymm {a b : Nat × ℝ} (h1 : scoreLE a b) (h2 : scoreLE b a) :
    a = b := by
  obtain ⟨a1, a2⟩ := a
  obtain ⟨b1, b2⟩ := b
  simp only [scoreLE] at h1 h2
  rcases h1 with h1 | ⟨h1, h1n⟩ <;> rcases h2 with h2 | ⟨h2, h2n⟩
  · exact absurd (lt_trans h1 h2) (lt_irrefl _)
  · exact absurd h1 (by rw [h2]; exact lt_irrefl _)
  · exact absurd h2 (by rw [h1]; exact lt_irrefl _)
  · simp only [Prod.mk.injEq]
    exact ⟨Nat.le_antisymm h1n h2n, h1⟩

/-- Modelled from the spec: IndexFlatIP.search over the stored vectors with an
(already normalized) query, returning the first m (position, score) pairs in
score-descending, position-ascending order. -/
noncomputable def indexSearch (vecs : List (List ℝ)) (q : List ℝ) (m : Nat) :
    List (Nat × ℝ) :=
  (List.insertionSort scoreLE
    ((List.range vecs.length).map (fun i => (i, dot q (vecs.getD i []))))).take m

/-- A chunk as returned by retrieval: the chunk dict copy with the
similarity_score and rank keys added. -/
structure RankedChunk where
  chunk : Chunk
  similarity_score : ℝ
  rank : Nat

/-- The result-assembly loop of retrieve_top_k_chunks (lines 74-80): enumerate
the (position, score) pairs, keep those whose position indexes the chunk list,
and attach the similarity score and the 1-based rank (the rank counter also
advances over skipped pairs, as enumerate does). -/
def attachRanks (chunks : List Chunk) : Nat → List (Nat × ℝ) → List RankedChunk
  | _, [] => []
  | r, p :: rest =>
      if h : p.1 < chunks.length then
        ⟨chunks.get ⟨p.1, h⟩, p.2, r + 1⟩ :: attachRanks chunks (r + 1) rest
      else attachRanks chunks (r + 1) rest

/-- retrieve_top_k_chunks (faiss_index.py lines 39-87): empty on a missing
index or an empty chunk list; otherwise normalizes the query, searches for
min(k, len(chunks), ntotal) neighbours and maps them back onto the chunks. -/
noncomputable def retrieve_top_k_chunks (query_embedding : List ℝ)
    (index : Option FaissIndex) (chunks : List Chunk) (k : Nat) :
    List RankedChunk :=
  match index with
  | none => []
  | some idx =>
      if chunks.length = 0 then []
      else
        attachRanks chunks 0
          (indexSearch idx.vecs (normalize query_embedding)
            (min k (min chunks.length idx.vecs.length)))

/-! ### Inner-product algebra -/

lemma dot_cons (a b : ℝ) (u v : List ℝ) :
    dot (a :: u) (b :: v) = a * b + dot u v := by
  simp [dot]

lemma dot_self_nonneg (v : List ℝ) : 0 ≤ dot v v := by
  induction v with
  | nil => simp [dot]
  | cons a v ih => rw [dot_cons]; exact add_nonneg (mul_self_nonneg a) ih

lemma dot_self_pos (v : List ℝ) (h : ∃ x ∈ v, x ≠ 0) : 0 < dot v v := by
  induction v with
  | nil => simp at h
  | cons a v ih =>
      rw [dot_cons]
      rcases h with ⟨x, hx, hxne⟩
      rcases List.mem_cons.mp hx with rfl | hxv
      · exact add_pos_of_pos_of_nonneg (mul_self_pos.mpr hxne) (dot_self_nonneg v)
      · exact add_pos_of_nonneg_of_pos (mul_self_nonneg a) (ih ⟨x, hxv, hxne⟩)

lemma dot_map_div (u : List ℝ) : ∀ (v : List ℝ) (c : ℝ),
    dot (u.map (fun x => x / c)) (v.map (fun x => x / c)) = dot u v / (c * c) := by
  induction u with
  | nil => intro v c; simp [dot]
  | cons a u ih =>
      intro v c
      cases v with
      | nil => simp [dot]
      | cons b v =>
          simp only [List.map_cons, dot_cons, ih]
          rw [div_mul_div_comm, div_add_div_same]

lemma normalize_nil : normalize ([] : List ℝ) = [] := by simp [normalize]

lemma normalize_length (v : List ℝ) : (normalize v).length = v.length := by
  simp [normalize]

/-- A nonzero vector normalizes to a unit vector (inner product 1 with
itself). -/
lemma normalize_unit (v : List ℝ) (h : ∃ x ∈ v, x ≠ 0) :
    dot (normalize v) (normalize v) = 1 := by
  have hpos := dot_self_pos v h
  simp only [normalize]
  rw [dot_map_div, Real.mul_self_sqrt (le_of_lt hpos)]
  exact div_self (ne_of_gt hpos)

lemma dot_sub_expand (u : List ℝ) : ∀ (v : List ℝ), u.length = v.length →
    dot (List.zipWith (fun a b => a - b) u v) (List.zipWith (fun a b => a - b) u v)
      = dot u u - 2 * dot u v + dot v v := by
  induction u with
  | nil =>
      intro v hlen
      cases v with
      | nil => simp [dot]
      | cons b v => simp at hlen
  | cons a u ih =>
      intro v hlen
      cases v with
      | nil => simp at hlen
      | cons b v =>
          simp only [List.zipWith_cons_cons, dot_cons]
          rw [ih v (by simpa using hlen)]
          ring

/-- For unit vectors of equal dimension the inner product is at most 1. -/
lemma unit_dot_le_one (u v : List ℝ) (hlen : u.length = v.length)
    (hu : dot u u = 1) (hv : dot v v = 1) : dot u v ≤ 1 := by
  have h := dot_self_nonneg (List.zipWith (fun a b => a - b) u v)
  rw [dot_sub_expand u v hlen, hu, hv] at h
  linarith

lemma eq_of_diff_dot_zero (u : List ℝ) : ∀ (v : List ℝ), u.length = v.length →
    dot (List.zipWith (fun a b => a - b) u v) (List.zipWith (fun a b => a - b) u v) = 0 →
    u = v := by
  induction u with
  | nil =>
      intro v hlen _
      cases v with
      | nil => rfl
      | cons b v => simp at hlen
  | cons a u ih =>
      intro v hlen hz
      cases v with
      | nil => simp at hlen
      | cons b v =>
          simp only [List.zipWith_cons_cons, dot_cons] at hz
          have h1 : (0:ℝ) ≤ (a - b) * (a - b) := mul_self_nonneg _
          have h2 := dot_self_nonneg (List.zipWith (fun a b => a - b) u v)
          have hab : (a - b) * (a - b) = 0 := by linarith
          have hrest :
              dot (List.zipWith (fun a b => a - b) u v)
                (List.zipWith (fun a b => a - b) u v) = 0 := by linarith
          have hab2 : a = b := by
            have := mul_self_eq_zero.mp hab
            linarith
          rw [hab2, ih v (by simpa using hlen) hrest]

/-- For unit vectors of equal dimension, inner product exactly 1 forces
equality (the tie case of self-similarity search). -/
lemma eq_of_unit_dot_eq_one (u v : List ℝ) (hlen : u.length = v.length)
    (hu : dot u u = 1) (hv : dot v v = 1) (h1 : dot u v = 1) : u = v := by
  have h := dot_sub_expand u v hlen
  rw [hu, hv, h1] at h
  exact eq_of_diff_dot_zero u v hlen (by rw [h]; ring)

/-! ### Search and rank-assembly lemmas -/

lemma indexSearch_length (vecs : List (List ℝ)) (q : List ℝ) (m : Nat) :
    (indexSearch vecs q m).length = min m vecs.length := by
  simp [indexSearch]

lemma indexSearch_sorted (vecs : List (List ℝ)) (q : List ℝ) (m : Nat) :
    List.Sorted scoreLE (indexSearch vecs q m) :=
  List.Pairwise.sublist (List.take_sublist m _)
    (List.sorted_insertionSort scoreLE _)

lemma indexSearch_mem (vecs : List (List ℝ)) (q : List ℝ) (m : Nat)
    {p : Nat × ℝ} (hp : p ∈ indexSearch vecs q m) :
    p.1 < vecs.length ∧ p.2 = dot q (vecs.getD p.1 []) := by
  have h1 : p ∈ List.insertionSort scoreLE
      ((List.range vecs.length).map (fun i => (i, dot q (vecs.getD i [])))) :=
    (List.take_sublist m _).subset hp
  have h2 := (List.mem_insertionSort scoreLE).mp h1
  obtain ⟨i, hi, heq⟩ := List.mem_map.mp h2
  subst heq
  exact ⟨List.mem_range.mp hi, rfl⟩

lemma mem_indexSearch_of_lt (vecs : List (List ℝ)) (q : List ℝ) (i : Nat)
    (hi : i < vecs.length) :
    (i, dot q (vecs.getD i [])) ∈ List.insertionSort scoreLE
      ((List.range vecs.length).map (fun j => (j, dot q (vecs.getD j [])))) := by
  rw [List.mem_insertionSort]
  exact List.mem_map.mpr ⟨i, List.mem_range.mpr hi, rfl⟩

lemma sorted_head?_eq {l : List (Nat × ℝ)} {m : Nat × ℝ}
    (hs : List.Sorted scoreLE l) (hm : m ∈ l) (hall : ∀ x ∈ l, scoreLE m x) :
    l.head? = some m := by
  cases l with
  | nil => simp at hm
  | cons a t =>
      rcases List.mem_cons.mp hm with h | h
      · rw [h]; rfl
      · have ha : scoreLE a m := List.rel_of_sorted_cons hs m h
        have hb : scoreLE m a := hall a (by simp)
        rw [scoreLE_antisymm hb ha]; rfl

lemma getD_map_normalize (vs : List (List ℝ)) (j : Nat) :
    (vs.map normalize).getD j [] = normalize (vs.getD j []) := by
  have h := List.getD_map vs [] (n := j) normalize
  rwa [normalize_nil] at h

lemma attachRanks_length (chunks : List Chunk) :
    ∀ (res : List (Nat × ℝ)) (r : Nat), (∀ p ∈ res, p.1 < chunks.length) →
      (attachRanks chunks r res).length = res.length := by
  intro res
  induction res with
  | nil => intro r _; rfl
  | cons p rest ih =>
      intro r hall
      have hp := hall p (by simp)
      simp only [attachRanks, dif_pos hp, List.length_cons]
      rw [ih (r + 1) (fun x hx => hall x (by simp [hx]))]

lemma attachRanks_get? (chunks : List Chunk) :
    ∀ (res : List (Nat × ℝ)) (r j : Nat), (∀ p ∈ res, p.1 < chunks.length) →
      (attachRanks chunks r res).get? j
        = (res.get? j).map
            (fun p => ⟨chunks.getD p.1 default, p.2, r + j + 1⟩) := by
  intro res
  induction res with
  | nil => intro r j _; simp [attachRanks]
  | cons p rest ih =>
      intro r j hall
      have hp := hall p (by simp)
      simp only [attachRanks, dif_pos hp]
      cases j with
      | zero =>
          have hd : chunks.getD p.1 default = chunks.get ⟨p.1, hp⟩ := by
            rw [List.getD_eq_getElem chunks default hp, List.get_eq_getElem]
          simp only [List.get?, Option.map_some']
          rw [hd]
      | succ j =>
          simp only [List.get?]
          rw [ih (r + 1) j (fun x hx => hall x (by simp [hx]))]
          have harith : r + 1 + j + 1 = r + (j + 1) + 1 := by omega
          rw [harith]

lemma retrieve_eq_attach (q : List ℝ) (idx : FaissIndex) (chunks : List Chunk)
    (k : Nat) (hne : chunks.length ≠ 0) :
    retrieve_top_k_chunks q (some idx) chunks k
      = attachRanks chunks 0
          (indexSearch idx.vecs (normalize q)
            (min k (min chunks.length idx.vecs.length))) := by
  simp [retrieve_top_k_chunks, hne]

/-! ### Vector-index claims -/

/-- Claim C4 (amended: the code tests numpy's ndarray.size, so the failure
condition is a size-zero embedding array — no scalar entries — rather than an
empty embedding sequence, see create_index_empty_cex).  create_faiss_index
yields no index exactly when the embedding array has size zero (in particular
when the embedding set is empty); otherwise position i of the index holds the
i-th input embedding rescaled by its L2 norm — a unit vector whenever that
embedding is nonzero — preserving insertion order. -/
theorem create_index_spec (es : List (List ℝ)) :
    (create_faiss_index es = none ↔ npSize es = 0) ∧
    (∀ idx, create_faiss_index es = some idx →
      idx.vecs.length = es.length ∧
      ∀ i v, es.get? i = some v →
        idx.vecs.get? i = some (normalize v) ∧
        ((∃ x ∈ v, x ≠ 0) → dot (normalize v) (normalize v) = 1)) := by
  constructor
  · constructor
    · intro h
      by_contra hne
      simp only [create_faiss_index, if_neg hne] at h
      exact Option.noConfusion h
    · intro h
      simp [create_faiss_index, h]
  · intro idx hidx
    have hne : ¬ npSize es = 0 := by
      intro h
      simp [create_faiss_index, h] at hidx
    simp only [create_faiss_index, if_neg hne, Option.some.injEq] at hidx
    subst hidx
    refine ⟨by simp, ?_⟩
    intro i v hv
    refine ⟨?_, fun hnz => normalize_unit v hnz⟩
    rw [List.get?_map, hv]
    rfl

/-- Witness for create_index_spec on the one-vector array [[1, 0]]: the index
is built, stores the normalized vector at position 0, and that vector has unit
norm. -/
theorem create_index_spec_witness :
    create_faiss_index [[(1:ℝ), 0]] = some ⟨[normalize [(1:ℝ), 0]]⟩ ∧
    ([normalize [(1:ℝ), 0]] : List (List ℝ)).get? 0 = some (normalize [(1:ℝ), 0]) ∧
    dot (normalize [(1:ℝ), 0]) (normalize [(1:ℝ), 0]) = 1 := by
  have hsome : create_faiss_index [[(1:ℝ), 0]] = some ⟨[normalize [(1:ℝ), 0]]⟩ := by
    simp [create_faiss_index, npSize]
  have h := ((create_index_spec [[(1:ℝ), 0]]).2 ⟨[normalize [(1:ℝ), 0]]⟩ hsome).2
    0 [(1:ℝ), 0] rfl
  exact ⟨hsome, h.1, h.2 ⟨1, by simp, one_ne_zero⟩⟩

/-- Claim C4 as frozen fails on a non-empty set of zero-dimension embeddings:
the 2-row, 0-column array has numpy size 0, so create_faiss_index yields no
index even though the embedding set is not empty. -/
theorem create_index_empty_cex :
    ([([] : List ℝ), []] ≠ ([] : List (List ℝ))) ∧
    create_faiss_index [([] : List ℝ), []] = none := by
  refine ⟨by simp, ?_⟩
  simp [create_faiss_index, npSize]

/-- Claim C3: for an index over n vectors with the aligned chunk list of the
pipeline (one chunk per stored vector) and any query and k ≥ 1, the search
performed by retrieve_top_k_chunks asks for min(k, n) neighbours and gets
exactly that many (position, score) pairs, sorted by descending inner-product
score with ties broken by ascending position; each pair holds a valid position
together with the inner product of the normalized query with the vector stored
there; and k ≥ n returns all n results.  The faiss search primitive is
modelled from the spec, section 4.2. -/
theorem search_topk_ordered (q : List ℝ) (vecs : List (List ℝ))
    (chunks : List Chunk) (k : Nat)
    (hal : chunks.length = vecs.length) (hne : vecs ≠ []) (hk : 1 ≤ k) :
    (indexSearch vecs (normalize q) (min k (min chunks.length vecs.length))).length
        = min k vecs.length ∧
    List.Sorted scoreLE
      (indexSearch vecs (normalize q) (min k (min chunks.length vecs.length))) ∧
    (∀ p ∈ indexSearch vecs (normalize q) (min k (min chunks.length vecs.length)),
        p.1 < vecs.length ∧ p.2 = dot (normalize q) (vecs.getD p.1 [])) ∧
    (retrieve_top_k_chunks q (some ⟨vecs⟩) chunks k).length = min k vecs.length ∧
    (vecs.length ≤ k →
      (indexSearch vecs (normalize q)
          (min k (min chunks.length vecs.length))).length = vecs.length) := by
  have hmm : min chunks.length vecs.length = vecs.length := by
    rw [hal, Nat.min_self]
  have hlen := indexSearch_length vecs (normalize q)
    (min k (min chunks.length vecs.length))
  have h2 : min (min k (min chunks.length vecs.length)) vecs.length
      = min k vecs.length := by
    rw [hmm, Nat.min_assoc, Nat.min_self]
  have hlen' : (indexSearch vecs (normalize q)
      (min k (min chunks.length vecs.length))).length = min k vecs.length := by
    rw [hlen, h2]
  refine ⟨hlen', indexSearch_sorted _ _ _,
    fun p hp => indexSearch_mem _ _ _ hp, ?_, fun hkn => by rw [hlen']; omega⟩
  have hcne : chunks.length ≠ 0 := by
    rw [hal]
    intro h
    exact hne (List.length_eq_zero.mp h)
  rw [retrieve_eq_attach q ⟨vecs⟩ chunks k hcne]
  rw [attachRanks_length chunks _ 0 ?valid]
  · exact hlen'
  case valid =>
    intro p hp
    rw [hal]
    exact (indexSearch_mem _ _ _ hp).1

/-- A concrete chunk record used by the search witnesses. -/
def sampleChunk : Chunk :=
  { text := "t", source := "s", chunk_id := 0, start_word := 0,
    end_word := 1, word_count := 1 }

/-- Witness for search_topk_ordered: one stored vector, k = 2 > n = 1, all
conclusions instantiated. -/
theorem search_topk_ordered_witness :
    ([sampleChunk].length = [[(1:ℝ), 0]].length ∧ ([[(1:ℝ), 0]] : List (List ℝ)) ≠ [] ∧ 1 ≤ 2) ∧
    ((indexSearch [[(1:ℝ), 0]] (normalize [(1:ℝ), 0])
        (min 2 (min [sampleChunk].length ([[(1:ℝ), 0]] : List (List ℝ)).length))).length
        = min 2 ([[(1:ℝ), 0]] : List (List ℝ)).length ∧
     List.Sorted scoreLE
       (indexSearch [[(1:ℝ), 0]] (normalize [(1:ℝ), 0])
         (min 2 (min [sampleChunk].length ([[(1:ℝ), 0]] : List (List ℝ)).length))) ∧
     (∀ p ∈ indexSearch [[(1:ℝ), 0]] (normalize [(1:ℝ), 0])
          (min 2 (min [sampleChunk].length ([[(1:ℝ), 0]] : List (List ℝ)).length)),
        p.1 < ([[(1:ℝ), 0]] : List (List ℝ)).length ∧
        p.2 = dot (normalize [(1:ℝ), 0]) (([[(1:ℝ), 0]] : List (List ℝ)).getD p.1 [])) ∧
     (retrieve_top_k_chunks [(1:ℝ), 0] (some ⟨[[(1:ℝ), 0]]⟩) [sampleChunk] 2).length
        = min 2 ([[(1:ℝ), 0]] : List (List ℝ)).length ∧
     (([[(1:ℝ), 0]] : List (List ℝ)).length ≤ 2 →
       (indexSearch [[(1:ℝ), 0]] (normalize [(1:ℝ), 0])
           (min 2 (min [sampleChunk].length ([[(1:ℝ), 0]] : List (List ℝ)).length))).length
         = ([[(1:ℝ), 0]] : List (List ℝ)).length)) :=
  ⟨⟨rfl, by simp, by omega⟩,
    search_topk_ordered [(1:ℝ), 0] [[(1:ℝ), 0]] [sampleChunk] 2 rfl (by simp) (by omega)⟩

/-- Claim C5 (amended: the vectors share one dimension, as rows of the 2D
embedding array do, and no earlier vector may normalize to the same unit
vector as the queried one — with duplicates the index returns the earliest
tied position instead, see index_self_similarity_cex).  Building an index
from nonzero vectors v1..vn and searching with vi itself as the query puts
vi's own position at rank 1 with score exactly 1. -/
theorem index_self_similarity (vs : List (List ℝ)) (d i k : Nat)
    (hd : ∀ v ∈ vs, v.length = d) (hnz : ∀ v ∈ vs, ∃ x ∈ v, x ≠ 0)
    (hi : i < vs.length)
    (hfirst : ∀ j, j < i → normalize (vs.getD j []) ≠ normalize (vs.getD i []))
    (hk : 1 ≤ k) :
    ∃ idx, create_faiss_index vs = some idx ∧
      (indexSearch idx.vecs (normalize (vs.getD i []))
          (min k vs.length)).head? = some (i, 1) := by
  have hgetD_mem : ∀ j, j < vs.length → vs.getD j [] ∈ vs := by
    intro j hj
    rw [List.getD_eq_getElem vs [] hj]
    exact List.getElem_mem _
  have hvi_mem := hgetD_mem i hi
  have hvinz := hnz _ hvi_mem
  have hsize : ¬ npSize vs = 0 := by
    intro h
    obtain ⟨x, hx, _⟩ := hvinz
    have h1 : (vs.getD i []).length ∈ vs.map List.length :=
      List.mem_map_of_mem List.length hvi_mem
    have h2 : (vs.getD i []).length ≤ npSize vs :=
      List.single_le_sum (fun n _ => Nat.zero_le n) _ h1
    have h3 : 0 < (vs.getD i []).length := List.length_pos.mpr (by
      intro hv
      rw [hv] at hx
      simp at hx)
    omega
  refine ⟨⟨vs.map normalize⟩, by simp [create_faiss_index, if_neg hsize], ?_⟩
  have hdot_i : dot (normalize (vs.getD i [])) ((vs.map normalize).getD i [])
      = 1 := by
    rw [getD_map_normalize]
    exact normalize_unit _ hvinz
  have hmem_scored : ((i : Nat), (1 : ℝ)) ∈ List.insertionSort scoreLE
      ((List.range (vs.map normalize).length).map
        (fun j => (j, dot (normalize (vs.getD i [])) ((vs.map normalize).getD j [])))) := by
    rw [List.mem_insertionSort]
    refine List.mem_map.mpr ⟨i, List.mem_range.mpr (by simpa using hi), ?_⟩
    rw [hdot_i]
  have hall : ∀ x ∈ List.insertionSort scoreLE
      ((List.range (vs.map normalize).length).map
        (fun j => (j, dot (normalize (vs.getD i [])) ((vs.map normalize).getD j [])))),
      scoreLE (i, 1) x := by
    intro x hx
    rw [List.mem_insertionSort] at hx
    obtain ⟨j, hjr, heq⟩ := List.mem_map.mp hx
    have hj : j < vs.length := by simpa using List.mem_range.mp hjr
    subst heq
    have hvj_mem := hgetD_mem j hj
    have hvjnz := hnz _ hvj_mem
    have hlen_ij : (normalize (vs.getD i [])).length
        = (normalize (vs.getD j [])).length := by
      rw [normalize_length, normalize_length, hd _ hvi_mem, hd _ hvj_mem]
    have hui := normalize_unit _ hvinz
    have huj := normalize_unit _ hvjnz
    have hle : dot (normalize (vs.getD i [])) ((vs.map normalize).getD j []) ≤ 1 := by
      rw [getD_map_normalize]
      exact unit_dot_le_one _ _ hlen_ij hui huj
    rcases lt_or_eq_of_le hle with hlt | heq1
    · exact Or.inl hlt
    · have heqv : normalize (vs.getD i []) = normalize (vs.getD j []) := by
        apply eq_of_unit_dot_eq_one _ _ hlen_ij hui huj
        rw [← getD_map_normalize vs j]
        exact heq1
      have hij : ¬ j < i := fun hji => hfirst j hji heqv.symm
      exact Or.inr ⟨heq1.symm, by omega⟩
  have hhead : (List.insertionSort scoreLE
      ((List.range (vs.map normalize).length).map
        (fun j => (j, dot (normalize (vs.getD i [])) ((vs.map normalize).getD j []))))).head?
      = some (i, 1) :=
    sorted_head?_eq (List.sorted_insertionSort scoreLE _) hmem_scored hall
  show (List.insertionSort scoreLE _ |>.take _).head? = some (i, 1)
  rw [List.head?_take, if_neg (by
    have h1 : 0 < vs.length := by omega
    omega), hhead]

/-- Witness for index_self_similarity: two orthogonal unit vectors, querying
with the second one returns position 1 at rank 1 with score 1. -/
theorem index_self_similarity_witness :
    ((∀ v ∈ ([[(1:ℝ), 0], [0, 1]] : List (List ℝ)), v.length = 2) ∧
     (∀ v ∈ ([[(1:ℝ), 0], [0, 1]] : List (List ℝ)), ∃ x ∈ v, x ≠ 0) ∧
     1 < ([[(1:ℝ), 0], [0, 1]] : List (List ℝ)).length ∧
     (∀ j, j < 1 → normalize (([[(1:ℝ), 0], [0, 1]] : List (List ℝ)).getD j [])
        ≠ normalize (([[(1:ℝ), 0], [0, 1]] : List (List ℝ)).getD 1 [])) ∧ 1 ≤ 1) ∧
    (∃ idx, create_faiss_index [[(1:ℝ), 0], [0, 1]] = some idx ∧
      (indexSearch idx.vecs
          (normalize (([[(1:ℝ), 0], [0, 1]] : List (List ℝ)).getD 1 []))
          (min 1 ([[(1:ℝ), 0], [0, 1]] : List (List ℝ)).length)).head?
        = some (1, 1)) := by
  have hdim : ∀ v ∈ ([[(1:ℝ), 0], [0, 1]] : List (List ℝ)), v.length = 2 := by
    intro v hv
    simp only [List.mem_cons, List.mem_singleton, List.not_mem_nil, or_false] at hv
    rcases hv with rfl | rfl <;> rfl
  have hnz : ∀ v ∈ ([[(1:ℝ), 0], [0, 1]] : List (List ℝ)), ∃ x ∈ v, x ≠ 0 := by
    intro v hv
    simp only [List.mem_cons, List.mem_singleton, List.not_mem_nil, or_false] at hv
    rcases hv with rfl | rfl
    · exact ⟨1, by simp, one_ne_zero⟩
    · exact ⟨1, by simp, one_ne_zero⟩
  have hd1 : dot [(1:ℝ), 0] [(1:ℝ), 0] = 1 := by norm_num [dot]
  have hd2 : dot [(0:ℝ), 1] [(0:ℝ), 1] = 1 := by norm_num [dot]
  have e1 : normalize [(1:ℝ), 0] = [1, 0] := by
    simp only [normalize, hd1, Real.sqrt_one]
    norm_num
  have e2 : normalize [(0:ℝ), 1] = [0, 1] := by
    simp only [normalize, hd2, Real.sqrt_one]
    norm_num
  have hfirst : ∀ j, j < 1 →
      normalize (([[(1:ℝ), 0], [0, 1]] : List (List ℝ)).getD j [])
        ≠ normalize (([[(1:ℝ), 0], [0, 1]] : List (List ℝ)).getD 1 []) := by
    intro j hj
    have hj0 : j = 0 := by omega
    subst hj0
    show normalize [(1:ℝ), 0] ≠ normalize [(0:ℝ), 1]
    rw [e1, e2]
    simp
  exact ⟨⟨hdim, hnz, by simp, hfirst, le_refl 1⟩,
    index_self_similarity [[(1:ℝ), 0], [0, 1]] 2 1 1 hdim hnz (by simp) hfirst
      (le_refl 1)⟩

/-- Claim C5 as frozen fails for duplicated vectors: indexing [1,0] twice and
searching with the second copy as the query ties both positions at score 1, and
the ascending-position tie-break puts position 0 — not the queried vector's own
position 1 — at rank 1. -/
theorem index_self_similarity_cex :
    create_faiss_index [[(1:ℝ), 0], [1, 0]]
        = some ⟨[normalize [(1:ℝ), 0], normalize [(1:ℝ), 0]]⟩ ∧
    (indexSearch [normalize [(1:ℝ), 0], normalize [(1:ℝ), 0]]
        (normalize [(1:ℝ), 0]) 1).head? = some (0, 1) ∧
    (indexSearch [normalize [(1:ℝ), 0], normalize [(1:ℝ), 0]]
        (normalize [(1:ℝ), 0]) 1).head? ≠ some (1, 1) := by
  have hd1 : dot [(1:ℝ), 0] [(1:ℝ), 0] = 1 := by norm_num [dot]
  have e1 : normalize [(1:ℝ), 0] = [1, 0] := by
    simp only [normalize, hd1, Real.sqrt_one]
    norm_num
  have hmain : (indexSearch [normalize [(1:ℝ), 0], normalize [(1:ℝ), 0]]
      (normalize [(1:ℝ), 0]) 1).head? = some (0, 1) := by
    rw [e1]
    have hrange : List.range ([[(1:ℝ), 0], [(1:ℝ), 0]] : List (List ℝ)).length
        = [0, 1] := by decide
    simp only [indexSearch, hrange, List.map_cons, List.map_nil,
      List.getD_cons_zero, List.getD_cons_succ, hd1]
    have hsort : List.insertionSort scoreLE [((0:Nat), (1:ℝ)), (1, 1)]
        = [(0, 1), (1, 1)] := by
      simp only [List.insertionSort, List.orderedInsert]
      rw [if_pos (by simp [scoreLE])]
    rw [hsort]
    rfl
  refine ⟨by simp [create_faiss_index, npSize], hmain, ?_⟩
  rw [hmain]
  simp

/-- Claim C6: with a built index aligned to a non-empty chunk collection,
retrieval returns min(k, total_chunks) ranked chunks for every query (so the
result is never empty once k ≥ 1, whatever the query's content), and the j-th
result is chunks[position] of the j-th (position, score) search pair with
similarity_score = score and rank = j + 1. -/
theorem retrieve_rank_mapping (q : List ℝ) (idx : FaissIndex)
    (chunks : List Chunk) (k : Nat)
    (hal : idx.vecs.length = chunks.length) (hne : chunks ≠ []) :
    (retrieve_top_k_chunks q (some idx) chunks k).length = min k chunks.length ∧
    (∀ j, (retrieve_top_k_chunks q (some idx) chunks k).get? j
        = ((indexSearch idx.vecs (normalize q)
              (min k (min chunks.length idx.vecs.length))).get? j).map
            (fun p => ⟨chunks.getD p.1 default, p.2, j + 1⟩)) ∧
    (1 ≤ k → retrieve_top_k_chunks q (some idx) chunks k ≠ []) := by
  have hcne : chunks.length ≠ 0 := fun h => hne (List.length_eq_zero.mp h)
  have hvalid : ∀ p ∈ indexSearch idx.vecs (normalize q)
      (min k (min chunks.length idx.vecs.length)), p.1 < chunks.length := by
    intro p hp
    rw [← hal]
    exact (indexSearch_mem _ _ _ hp).1
  have hattach := retrieve_eq_attach q idx chunks k hcne
  have hislen := indexSearch_length idx.vecs (normalize q)
    (min k (min chunks.length idx.vecs.length))
  have hmineq : min (min k (min chunks.length idx.vecs.length)) idx.vecs.length
      = min k chunks.length := by
    rw [hal, Nat.min_self, Nat.min_assoc, Nat.min_self]
  have hlen : (retrieve_top_k_chunks q (some idx) chunks k).length
      = min k chunks.length := by
    rw [hattach, attachRanks_length chunks _ 0 hvalid, hislen, hmineq]
  refine ⟨hlen, ?_, ?_⟩
  · intro j
    rw [hattach, attachRanks_get? chunks _ 0 j hvalid, Nat.zero_add]
  · intro hk1 hnil
    rw [hnil] at hlen
    have hc1 : 0 < chunks.length := List.length_pos.mpr hne
    simp at hlen
    omega

/-- Witness for retrieve_rank_mapping: one stored vector, one chunk, k = 1. -/
theorem retrieve_rank_mapping_witness :
    ((FaissIndex.mk [[(1:ℝ), 0]]).vecs.length = [sampleChunk].length ∧
      ([sampleChunk] : List Chunk) ≠ []) ∧
    ((retrieve_top_k_chunks [(1:ℝ), 0] (some ⟨[[(1:ℝ), 0]]⟩) [sampleChunk] 1).length
        = min 1 [sampleChunk].length ∧
     (∀ j, (retrieve_top_k_chunks [(1:ℝ), 0] (some ⟨[[(1:ℝ), 0]]⟩)
            [sampleChunk] 1).get? j
        = ((indexSearch (FaissIndex.mk [[(1:ℝ), 0]]).vecs (normalize [(1:ℝ), 0])
              (min 1 (min [sampleChunk].length
                (FaissIndex.mk [[(1:ℝ), 0]]).vecs.length))).get? j).map
            (fun p => ⟨[sampleChunk].getD p.1 default, p.2, j + 1⟩)) ∧
     (1 ≤ 1 → retrieve_top_k_chunks [(1:ℝ), 0] (some ⟨[[(1:ℝ), 0]]⟩)
          [sampleChunk] 1 ≠ [])) :=
  ⟨⟨rfl, by simp⟩,
    retrieve_rank_mapping [(1:ℝ), 0] ⟨[[(1:ℝ), 0]]⟩ [sampleChunk] 1 rfl (by simp)⟩

/-! ## Orchestrator document loop (app.py) and extractor (utils/extractor.py) -/

/-- Python's str.strip(): whitespace removed from both ends. -/
def pyStrip (s : String) : String :=
  String.mk (((s.data.dropWhile Char.isWhitespace).reverse.dropWhile
    Char.isWhitespace).reverse)

/-- Outcome of the per-document extraction step as the orchestrator's try
block sees it: either the extracted text, or an exception with its message. -/
inductive ExtractOutcome where
  | ok (text : String)
  | fail (msg : String)
  deriving Repr, DecidableEq

/-- extract_text_from_pdf (extractor.py lines 8-28).  The external pdfplumber
call either yields the page texts or raises; the function concatenates each
non-empty page text followed by a newline, strips the result — and swallows
any exception, returning the empty string instead of failing. -/
def extract_text_from_pdf (pdfOutcome : Except String (List String)) : String :=
  match pdfOutcome with
  | Except.error _ => ""
  | Except.ok pages =>
      pyStrip (pages.foldl (fun acc p => if p = "" then acc else acc ++ p ++ "\n") "")

/-- The per-document loop of hackrx_webhook (app.py lines 54-77): documents
are consumed in order; an extraction exception aborts the whole request with
an error naming the document; a document whose extracted text is empty or
whitespace-only is skipped with a warning; otherwise its chunks (default
parameters 300, 50, 50) are appended to the running collection. -/
def processDocuments : List (String × ExtractOutcome) → Except String (List Chunk)
  | [] => Except.ok []
  | (fname, ExtractOutcome.fail msg) :: _ =>
      Except.error ("Failed to process " ++ fname ++ ": " ++ msg)
  | (fname, ExtractOutcome.ok text) :: rest =>
      if text.data.all Char.isWhitespace then processDocuments rest
      else
        match processDocuments rest with
        | Except.error e => Except.error e
        | Except.ok tail => Except.ok (chunk_text text fname 300 50 50 ++ tail)

/-- Claim C8 (amended: only failures that reach the orchestrator as exceptions
— unsupported file types, text decode errors — abort the request; PDF
extraction failures are swallowed by the extractor into an empty string and
the document is silently skipped instead, see orchestrator_swallow_cex).
When the extraction step raises on one document and every document before it
extracted without raising, the orchestrator aborts the whole request with an
error naming that document — no partial result is returned and nothing is
retried. -/
theorem orchestrator_fail_fast (pre post : List (String × ExtractOutcome))
    (fname msg : String)
    (hpre : ∀ d ∈ pre, ∀ m, d.2 ≠ ExtractOutcome.fail m) :
    processDocuments (pre ++ (fname, ExtractOutcome.fail msg) :: post)
      = Except.error ("Failed to process " ++ fname ++ ": " ++ msg) := by
  induction pre with
  | nil => rfl
  | cons d pre ih =>
      obtain ⟨dn, dr⟩ := d
      cases dr with
      | fail m =>
          exact absurd rfl (hpre (dn, ExtractOutcome.fail m) (by simp) m)
      | ok t =>
          have hrest := ih (fun x hx m => hpre x (by simp [hx]) m)
          simp only [List.cons_append, processDocuments]
          by_cases hws : t.data.all Char.isWhitespace
          · rw [if_pos hws]
            exact hrest
          · rw [if_neg hws]
            simp only [List.append_eq]
            rw [hrest]

/-- Witness for orchestrator_fail_fast: a clean first document followed by a
document whose extraction raises. -/
theorem orchestrator_fail_fast_witness :
    (∀ d ∈ [("a.txt", ExtractOutcome.ok "intro words")],
        ∀ m, d.2 ≠ ExtractOutcome.fail m) ∧
    processDocuments [("a.txt", ExtractOutcome.ok "intro words"),
        ("b.bin", ExtractOutcome.fail "Unsupported file type: b.bin")]
      = Except.error ("Failed to process " ++ "b.bin" ++ ": "
          ++ "Unsupported file type: b.bin") :=
  ⟨by
    intro d hd m
    simp only [List.mem_singleton] at hd
    rw [hd]
    simp,
   orchestrator_fail_fast [("a.txt", ExtractOutcome.ok "intro words")] []
     "b.bin" "Unsupported file type: b.bin" (by
      intro d hd m
      simp only [List.mem_singleton] at hd
      rw [hd]
      simp)⟩

/-- A 50-word document body used by the orchestrator counterexample. -/
def fiftyWords : String :=
  String.intercalate " " (List.replicate 50 "w")

set_option maxRecDepth 4000 in
/-- Claim C8 as frozen fails for PDF extraction failures: extract_text_from_pdf
swallows the failure into an empty string, so the orchestrator skips that
document instead of aborting with an error naming it, and returns a
partial-success chunk collection built from the remaining documents alone. -/
theorem orchestrator_swallow_cex :
    extract_text_from_pdf (Except.error "pdf parse failure") = "" ∧
    processDocuments
        [("a.pdf", ExtractOutcome.ok
            (extract_text_from_pdf (Except.error "pdf parse failure"))),
         ("b.txt", ExtractOutcome.ok fiftyWords)]
      = Except.ok (chunk_text fiftyWords "b.txt" 300 50 50 ++ []) ∧
    chunk_text fiftyWords "b.txt" 300 50 50 ≠ [] := by
  refine ⟨rfl, rfl, ?_⟩
  decide

/-! ## LLM fallback path (utils/llm.py)

The Gemini call itself and json.loads are external collaborators; the JSON
parser is passed as an oracle.  Only the response-recovery logic of
call_gemini (lines 89-98) and create_fallback_response (lines 129-143) are
embedded.
-/

/-- One justification entry of the structured response. -/
structure Justification where
  clause : String
  text : String
  relevance : String
  deriving Repr, DecidableEq

/-- The structured payload built by create_fallback_response. -/
structure FallbackResponse where
  decision : String
  confidence : ℚ
  justification : List Justification
  summary : String
  reasoning : String
  raw_response : String
  note : String
  deriving Repr, DecidableEq

/-- Python's raw_text[:500] + "..." bounded truncation (string slicing counts
characters), applied only beyond 500 characters. -/
def pyTruncate (s : String) : String :=
  if 500 < s.length then String.mk (s.data.take 500) ++ "..." else s

/-- create_fallback_response (llm.py lines 129-143). -/
def create_fallback_response (query raw_text : String) : FallbackResponse :=
  { decision := "processed"
    confidence := 1/2
    justification := [{ clause := "General Analysis"
                        text := pyTruncate raw_text
                        relevance := "AI-generated fallback response to the query" }]
    summary := "Processed query: " ++ query
    reasoning := "Fallback used due to parsing failure"
    raw_response := raw_text
    note := "This is a fallback response due to invalid or unstructured LLM output" }

/-- The opening curly brace character searched by text.find in call_gemini. -/
def lbrace : Char := Char.ofNat 123

/-- The closing curly brace character searched by text.rfind in call_gemini. -/
def rbrace : Char := Char.ofNat 125

/-- The substring text[json_start:json_end] extracted by call_gemini, from the
first opening brace to the last closing brace inclusive (Python str.find and
str.rfind plus one). -/
def jsonSegment (text : String) : String :=
  String.mk ((text.data.drop (text.data.indexOf lbrace)).take
    (text.data.length - text.data.reverse.indexOf rbrace - text.data.indexOf lbrace))

/-- The LLM collaborator output is malformed or non-JSON for call_gemini's
recovery path: the stripped response has no opening or no closing brace
(str.find returns -1, json_end is 0), or the external JSON parser rejects the
extracted segment. -/
def malformedOutput {J : Type} (parse : String → Option J) (raw : String) : Prop :=
  lbrace ∉ (pyStrip raw).data ∨ rbrace ∉ (pyStrip raw).data ∨
    parse (jsonSegment (pyStrip raw)) = none

/-- Result of the response-parsing segment of call_gemini: either the parsed
JSON document or the structured fallback. -/
inductive GeminiResult (J : Type) where
  | parsed (j : J)
  | fallback (r : FallbackResponse)

/-- The JSON-parsing segment of call_gemini (llm.py lines 89-98), with the
external json.loads modelled as an oracle: strip the response text, fall back
on the stripped text when no brace pair is present, fall back on the original
response text when the parser rejects the extracted segment, and otherwise
hand the parsed document on. -/
def call_gemini_parse {J : Type} (parse : String → Option J)
    (query responseText : String) : GeminiResult J :=
  if lbrace ∉ (pyStrip responseText).data ∨ rbrace ∉ (pyStrip responseText).data then
    GeminiResult.fallback (create_fallback_response query (pyStrip responseText))
  else
    match parse (jsonSegment (pyStrip responseText)) with
    | none => GeminiResult.fallback (create_fallback_response query responseText)
    | some j => GeminiResult.parsed j

lemma pyTruncate_length_le (s : String) : (pyTruncate s).length ≤ 503 := by
  unfold pyTruncate
  by_cases h : 500 < s.length
  · rw [if_pos h, String.length_append]
    have h1 : (String.mk (s.data.take 500)).length ≤ 500 := by
      show (s.data.take 500).length ≤ 500
      rw [List.length_take]
      omega
    have h2 : ("..." : String).length = 3 := by decide
    omega
  · rw [if_neg h]
    omega

/-- Claim C9: whenever the LLM collaborator output is malformed or non-JSON,
call_gemini produces the structured fallback response: its summary embeds the
original query text, and its justification carries the raw collaborator
output (stripped in the missing-brace case) truncated to a bounded length of
at most 503 characters. -/
theorem llm_fallback_structure {J : Type} (parse : String → Option J)
    (query raw : String) (hmal : malformedOutput parse raw) :
    ∃ fb, call_gemini_parse parse query raw = GeminiResult.fallback fb ∧
      fb.summary = "Processed query: " ++ query ∧
      (fb.justification.map Justification.text = [pyTruncate (pyStrip raw)] ∨
        fb.justification.map Justification.text = [pyTruncate raw]) ∧
      (∀ t ∈ fb.justification.map Justification.text, t.length ≤ 503) := by
  by_cases hbr : lbrace ∉ (pyStrip raw).data ∨ rbrace ∉ (pyStrip raw).data
  · refine ⟨create_fallback_response query (pyStrip raw), ?_, rfl, Or.inl rfl, ?_⟩
    · unfold call_gemini_parse
      rw [if_pos hbr]
    · intro t ht
      simp only [create_fallback_response, List.map_cons, List.map_nil,
        List.mem_singleton] at ht
      rw [ht]
      exact pyTruncate_length_le _
  · have hparse : parse (jsonSegment (pyStrip raw)) = none := by
      rcases hmal with h | h | h
      · exact absurd (Or.inl h) hbr
      · exact absurd (Or.inr h) hbr
      · exact h
    refine ⟨create_fallback_response query raw, ?_, rfl, Or.inr rfl, ?_⟩
    · unfold call_gemini_parse
      rw [if_neg hbr, hparse]
    · intro t ht
      simp only [create_fallback_response, List.map_cons, List.map_nil,
        List.mem_singleton] at ht
      rw [ht]
      exact pyTruncate_length_le _

/-- Witness for llm_fallback_structure: a brace-free plain-text response with
an always-failing parser yields the fallback. -/
theorem llm_fallback_structure_witness :
    malformedOutput (fun _ => (none : Option Unit)) "plain text answer" ∧
    (∃ fb, call_gemini_parse (fun _ => (none : Option Unit)) "q" "plain text answer"
        = GeminiResult.fallback fb ∧
      fb.summary = "Processed query: " ++ "q" ∧
      (fb.justification.map Justification.text
          = [pyTruncate (pyStrip "plain text answer")] ∨
        fb.justification.map Justification.text = [pyTruncate "plain text answer"]) ∧
      (∀ t ∈ fb.justification.map Justification.text, t.length ≤ 503)) :=
  ⟨Or.inr (Or.inr rfl),
    llm_fallback_structure (fun _ => (none : Option Unit)) "q" "plain text answer"
      (Or.inr (Or.inr rfl))⟩

end IntelliDocs
